import Mathlib

/-!
Verification development for the playlist-organizing script `plex_organize.py`.

The Python source is shallowly embedded: pure helper functions become Lean
functions over `String` / `List Char` / `Int`; the interactive and
network-facing parts (`inquirer` prompts, the Plex library) appear as explicit
functional parameters (a chooser answering with a string, a search oracle),
and the in-place/persistent effects of `sort_playlist` / `upgrade_playlist`
are modelled by explicit result records carrying the caller-visible state.

Python built-ins used by the source are modelled as follows:
* `str.lower` / `unidecode.unidecode` — character tables (`pyLowerChar`,
  `unidecChar`): ASCII case handled arithmetically, a finite table for the
  common Latin accented characters together with sample multi-character
  transliterations that emit capitalized ASCII (`'€' → "EUR"`,
  `'中' → "Zhong "`, as the real `unidecode` does); codepoints outside the
  table transliterate to the empty string (`unidecode`'s behaviour for
  codepoints it has no mapping for).
* `str.split(" ")` / `" ".join` / `str.strip` / `str.replace` — explicit
  recursive functions on `List Char` with Python's exact edge-case semantics
  (`"".split(" ") == [""]`, empty fields between adjacent separators, ...).
* `sorted(xs, key=k, reverse=r)` — a stable insertion sort `sortBy` with the
  Boolean relation `k a <= k b` (ascending) or `k b <= k a` (descending);
  either relation makes the stable sort place equal-key elements in input
  order, exactly as CPython's stable `sorted` does for both directions.
  CPython evaluates `key` on every element (in list order) before comparing,
  so a raising key function is modelled by an `Except`-valued traversal
  (`mapE`) run before the comparison pass.
* `random.shuffle(xs)` — an explicit permutation-producing oracle argument;
  the call mutates the list in place, which the embedding records in the
  caller-visible state of the result.
-/

/-! ## Generic list helpers -/

/-- Stable insertion of `a` into `l`: `a` is placed before the first element
`b` with `le a b = true`.  With a reflexive-on-equal-keys `le` this is the
insertion step of a stable sort. -/
def insertBy (le : α → α → Bool) (a : α) : List α → List α
  | [] => [a]
  | b :: l => if le a b then a :: b :: l else b :: insertBy le a l

/-- Stable insertion sort; model of CPython's stable `sorted`. -/
def sortBy (le : α → α → Bool) : List α → List α
  | [] => []
  | a :: l => insertBy le a (sortBy le l)

theorem insertBy_perm (le : α → α → Bool) (a : α) (l : List α) :
    (insertBy le a l).Perm (a :: l) := by
  induction l with
  | nil => simp [insertBy]
  | cons b l ih =>
      by_cases h : le a b = true
      · simp [insertBy, h]
      · rw [insertBy, if_neg h]
        exact ((ih.cons b).trans (List.Perm.swap a b l))

theorem sortBy_perm (le : α → α → Bool) (l : List α) : (sortBy le l).Perm l := by
  induction l with
  | nil => simp [sortBy]
  | cons a l ih =>
      exact (insertBy_perm le a (sortBy le l)).trans (ih.cons a)

theorem mem_sortBy {le : α → α → Bool} {l : List α} {x : α} :
    x ∈ sortBy le l ↔ x ∈ l :=
  (sortBy_perm le l).mem_iff

theorem pairwise_insertBy {le : α → α → Bool} {a : α} {l : List α}
    (htot : ∀ x y, le x y = true ∨ le y x = true)
    (htr : ∀ x y z, le x y = true → le y z = true → le x z = true)
    (hl : l.Pairwise (fun x y => le x y = true)) :
    (insertBy le a l).Pairwise (fun x y => le x y = true) := by
  induction l with
  | nil => simp [insertBy]
  | cons b l ih =>
      rcases hl with _ | ⟨hb, hl⟩
      by_cases h : le a b = true
      · rw [insertBy, if_pos h]
        refine List.Pairwise.cons ?_ (List.Pairwise.cons hb hl)
        intro y hy
        rcases List.mem_cons.mp hy with rfl | hy
        · exact h
        · exact htr a b y h (hb y hy)
      · rw [insertBy, if_neg h]
        refine List.Pairwise.cons ?_ (ih hl)
        intro y hy
        rcases List.mem_cons.mp ((insertBy_perm le a l).mem_iff.mp hy) with rfl | hyl
        · rcases htot y b with h' | h'
          · exact absurd h' h
          · exact h'
        · exact hb y hyl

theorem pairwise_sortBy (le : α → α → Bool) (l : List α)
    (htot : ∀ x y, le x y = true ∨ le y x = true)
    (htr : ∀ x y z, le x y = true → le y z = true → le x z = true) :
    (sortBy le l).Pairwise (fun x y => le x y = true) := by
  induction l with
  | nil => simp [sortBy]
  | cons a l ih => exact pairwise_insertBy htot htr ih

/-- Inserting an element that the predicate rejects does not change the
filtered list. -/
theorem filter_insertBy_neg (le : α → α → Bool) {p : α → Bool} {a : α}
    (l : List α) (ha : p a = false) :
    (insertBy le a l).filter p = l.filter p := by
  induction l with
  | nil => simp [insertBy, ha]
  | cons b l ih =>
      by_cases h : le a b = true
      · simp [insertBy, h, ha]
      · rw [insertBy, if_neg h]
        by_cases hb : p b = true <;> simp [List.filter, hb, ih]

/-- Inserting an element accepted by the predicate, when `le` accepts it
against every other accepted element, puts it at the head of the filtered
list: the key stability lemma. -/
theorem filter_insertBy_pos (le : α → α → Bool) {p : α → Bool} {a : α}
    (l : List α) (ha : p a = true)
    (hle : ∀ b ∈ l, p b = true → le a b = true) :
    (insertBy le a l).filter p = a :: l.filter p := by
  induction l with
  | nil => simp [insertBy, ha]
  | cons b l ih =>
      by_cases h : le a b = true
      · simp [insertBy, h, ha]
      · rw [insertBy, if_neg h]
        have hb : p b = false := by
          by_contra hb
          exact h (hle b (by simp) (by simpa using hb))
        simp only [List.filter, hb]
        exact ih (fun c hc hpc => hle c (by simp [hc]) hpc)

/-- A stable sort whose relation holds between any two elements accepted by
`p` leaves the `p`-filtered subsequence untouched. -/
theorem filter_sortBy_stable {le : α → α → Bool} {p : α → Bool} (l : List α)
    (h : ∀ x y, p x = true → p y = true → le x y = true) :
    (sortBy le l).filter p = l.filter p := by
  induction l with
  | nil => simp [sortBy]
  | cons a l ih =>
      by_cases ha : p a = true
      · have := filter_insertBy_pos le (sortBy le l) ha
          (fun b _ hb => h a b ha hb)
        simp only [sortBy, this, List.filter, ha, ih]
      · have := filter_insertBy_neg le (p := p) (a := a) (sortBy le l)
          (by simpa using ha)
        simp only [sortBy, this, List.filter, Bool.not_eq_true] at *
        simp [ha, ih, List.filter]

/-- `insertBy` on a decorated list mirrors `insertBy` on the underlying list
when the relation only inspects the decoration. -/
theorem insertBy_map_decorate {le : β → β → Bool} (f : α → β) (a : α)
    (l : List α) :
    insertBy (fun x y => le x.2 y.2) (a, f a) (l.map (fun i => (i, f i)))
      = (insertBy (fun x y => le (f x) (f y)) a l).map (fun i => (i, f i)) := by
  induction l with
  | nil => simp [insertBy]
  | cons b l ih =>
      simp only [List.map_cons]
      by_cases h : le (f a) (f b) = true
      · simp [insertBy, h]
      · rw [insertBy, if_neg h, insertBy, if_neg h]
        simp [ih]

/-- `sortBy` on a decorated list mirrors `sortBy` on the underlying list. -/
theorem sortBy_map_decorate (le : β → β → Bool) (f : α → β) (l : List α) :
    sortBy (fun x y => le x.2 y.2) (l.map (fun i => (i, f i)))
      = (sortBy (fun x y => le (f x) (f y)) l).map (fun i => (i, f i)) := by
  induction l with
  | nil => simp [sortBy]
  | cons a l ih => simp [sortBy, ih, insertBy_map_decorate]

/-- Effectful map over a list, stopping at the first error: the model of a
Python comprehension/loop in which the body may raise. -/
def mapE (f : α → Except ε β) : List α → Except ε (List β)
  | [] => .ok []
  | a :: l =>
      match f a with
      | .error e => .error e
      | .ok b =>
          match mapE f l with
          | .error e => .error e
          | .ok bs => .ok (b :: bs)

theorem mapE_ok_of_forall {f : α → Except ε β} {g : α → β} (l : List α)
    (h : ∀ i ∈ l, f i = .ok (g i)) : mapE f l = .ok (l.map g) := by
  induction l with
  | nil => rfl
  | cons a l ih =>
      have ha := h a (by simp)
      have hl := ih (fun i hi => h i (by simp [hi]))
      simp [mapE, ha, hl]

theorem mapE_error_of_mem {f : α → Except ε β} {l : List α} {a : α} {e : ε}
    (hmem : a ∈ l) (ha : f a = .error e) : ∃ e', mapE f l = .error e' := by
  induction l with
  | nil => simp at hmem
  | cons b l ih =>
      rcases List.mem_cons.mp hmem with rfl | hmem'
      · exact ⟨e, by simp [mapE, ha]⟩
      · match hb : f b with
        | .error eb => exact ⟨eb, by simp [mapE, hb]⟩
        | .ok vb =>
            obtain ⟨e', he'⟩ := ih hmem'
            exact ⟨e', by simp [mapE, hb, he']⟩

/-! ## Python string primitives on `List Char` -/

/-- Python's whitespace test used by `str.strip()` (ASCII part). -/
def isPySpace (c : Char) : Bool :=
  c = ' ' || c = '\t' || c = '\n' || c = '\r' || c = Char.ofNat 11 || c = Char.ofNat 12

/-- Model of Python `s.split(" ")`: split at every single space, keeping empty
fields (`"".split(" ") == [""]`, `"a  b".split(" ") == ["a","","b"]`). -/
def splitSp : List Char → List (List Char)
  | [] => [[]]
  | c :: rest =>
      match splitSp rest with
      | [] => [[]]
      | w :: ws => if c = ' ' then [] :: w :: ws else (c :: w) :: ws

/-- Model of Python `" ".join(words)`. -/
def intercalateSp : List (List Char) → List Char
  | [] => []
  | [w] => w
  | w :: ws => w ++ ' ' :: intercalateSp ws

/-- Drop leading Python whitespace. -/
def dropLeadSp (l : List Char) : List Char := l.dropWhile isPySpace

/-- Model of Python `s.strip()`: drop trailing whitespace (via reverse), then
leading whitespace. -/
def pyStrip (l : List Char) : List Char := dropLeadSp ((dropLeadSp l.reverse).reverse)

/-- `small` is a prefix of `big` (model of the start of Python `in`). -/
def startsWith : List Char → List Char → Bool
  | _, [] => true
  | [], _ :: _ => false
  | a :: as, b :: bs => a == b && startsWith as bs

/-- Model of Python substring containment `small in big`. -/
def containsSub : List Char → List Char → Bool
  | [], small => small.isEmpty
  | a :: as, small => startsWith (a :: as) small || containsSub as small

theorem splitSp_ne_nil (l : List Char) : splitSp l ≠ [] := by
  cases l with
  | nil => simp [splitSp]
  | cons c rest =>
      cases h : splitSp rest with
      | nil => simp [splitSp, h]
      | cons w ws =>
          by_cases hc : c = ' ' <;> simp [splitSp, h, hc]

/-- Every character of a word produced by `splitSp` occurs in the input. -/
theorem mem_of_mem_splitSp {l : List Char} {w : List Char} {c : Char}
    (hw : w ∈ splitSp l) (hc : c ∈ w) : c ∈ l := by
  induction l generalizing w with
  | nil =>
      simp [splitSp] at hw
      subst hw
      simp at hc
  | cons a rest ih =>
      rcases hsp : splitSp rest with _ | ⟨w', ws⟩
      · exact absurd hsp (splitSp_ne_nil rest)
      · simp only [splitSp, hsp] at hw
        by_cases ha : a = ' '
        · rw [if_pos ha] at hw
          rcases List.mem_cons.mp hw with rfl | hw'
          · simp at hc
          · exact List.mem_cons_of_mem a (ih (by rw [hsp]; exact hw') hc)
        · rw [if_neg ha] at hw
          rcases List.mem_cons.mp hw with rfl | hw'
          · rcases List.mem_cons.mp hc with rfl | hc'
            · simp
            · exact List.mem_cons_of_mem a (ih (by rw [hsp]; simp) hc')
          · exact List.mem_cons_of_mem a
              (ih (by rw [hsp]; exact List.mem_cons_of_mem w' hw') hc)

/-- Every character of `" ".join(ws)` is a space or occurs in one of the
words. -/
theorem mem_intercalateSp {ws : List (List Char)} {c : Char}
    (hc : c ∈ intercalateSp ws) : c = ' ' ∨ ∃ w ∈ ws, c ∈ w := by
  induction ws with
  | nil => simp [intercalateSp] at hc
  | cons w ws ih =>
      cases ws with
      | nil =>
          simp only [intercalateSp] at hc
          exact Or.inr ⟨w, by simp, hc⟩
      | cons w' ws' =>
          simp only [intercalateSp] at hc
          rcases List.mem_append.mp hc with h | h
          · exact Or.inr ⟨w, by simp, h⟩
          · rcases List.mem_cons.mp h with rfl | h'
            · exact Or.inl rfl
            · rcases ih h' with h'' | ⟨u, hu, hcu⟩
              · exact Or.inl h''
              · exact Or.inr ⟨u, by simp [hu], hcu⟩

theorem dropLeadSp_sublist (l : List Char) : (dropLeadSp l).Sublist l :=
  List.dropWhile_sublist _

theorem mem_pyStrip {l : List Char} {c : Char} (hc : c ∈ pyStrip l) : c ∈ l := by
  have h1 := (dropLeadSp_sublist ((dropLeadSp l.reverse).reverse)).mem hc
  have h2 := (dropLeadSp_sublist l.reverse).mem (List.mem_reverse.mp h1)
  exact List.mem_reverse.mp h2

theorem dropLeadSp_head_not_space {l : List Char} {c : Char}
    (h : (dropLeadSp l).head? = some c) : isPySpace c = false := by
  induction l with
  | nil => simp [dropLeadSp] at h
  | cons a l ih =>
      by_cases ha : isPySpace a = true
      · rw [dropLeadSp, List.dropWhile_cons_of_pos ha] at h
        exact ih h
      · rw [dropLeadSp, List.dropWhile_cons_of_neg ha] at h
        simp at h
        subst h
        simpa using ha

theorem dropLeadSp_of_head_not_space {l : List Char}
    (h : ∀ c, l.head? = some c → isPySpace c = false) : dropLeadSp l = l := by
  cases l with
  | nil => rfl
  | cons a l =>
      have := h a rfl
      rw [dropLeadSp, List.dropWhile_cons_of_neg (by simp [this])]

theorem dropLeadSp_getLast? {l : List Char} (hne : dropLeadSp l ≠ []) :
    (dropLeadSp l).getLast? = l.getLast? := by
  induction l with
  | nil => simp [dropLeadSp] at hne
  | cons a l ih =>
      by_cases ha : isPySpace a = true
      · have h1 : dropLeadSp (a :: l) = dropLeadSp l := by
          rw [dropLeadSp, dropLeadSp, List.dropWhile_cons_of_pos ha]
        rw [h1] at hne ⊢
        rw [ih hne]
        cases l with
        | nil => simp [dropLeadSp] at hne
        | cons b l => simp
      · have h1 : dropLeadSp (a :: l) = a :: l := by
          rw [dropLeadSp, List.dropWhile_cons_of_neg ha]
        rw [h1]

/-- `pyStrip` is idempotent (stripping a stripped string changes nothing). -/
theorem pyStrip_pyStrip (l : List Char) : pyStrip (pyStrip l) = pyStrip l := by
  set m := pyStrip l with hm
  have hhead : ∀ c, m.head? = some c → isPySpace c = false := by
    intro c hc
    exact dropLeadSp_head_not_space hc
  have hlast : ∀ c, m.getLast? = some c → isPySpace c = false := by
    intro c hc
    rcases hme : dropLeadSp ((dropLeadSp l.reverse).reverse) with _ | ⟨a, m'⟩
    · rw [hm, pyStrip, hme] at hc
      simp at hc
    · have hne : dropLeadSp ((dropLeadSp l.reverse).reverse) ≠ [] := by
        simp [hme]
      have h1 : m.getLast? = ((dropLeadSp l.reverse).reverse).getLast? := by
        rw [hm, pyStrip]
        exact dropLeadSp_getLast? hne
      rw [h1] at hc
      rcases hrev : dropLeadSp l.reverse with _ | ⟨b, r⟩
      · rw [hrev] at hc
        simp at hc
      · rw [hrev] at hc
        rw [List.getLast?_reverse] at hc
        have : (dropLeadSp l.reverse).head? = some c := by
          rw [hrev]
          simpa using hc
        exact dropLeadSp_head_not_space this
  have hrevstrip : dropLeadSp m.reverse = m.reverse := by
    apply dropLeadSp_of_head_not_space
    intro c hc
    apply hlast
    rwa [List.head?_reverse] at hc
  rw [pyStrip, hrevstrip, List.reverse_reverse]
  exact dropLeadSp_of_head_not_space hhead

/-! ## Python string comparison (code-point lexicographic) -/

/-- Lexicographic comparison of character lists by code point: the model of
CPython's `str` ordering (`"B" < "a"`, since `66 < 97`). -/
def charListLe : List Char → List Char → Bool
  | [], _ => true
  | _ :: _, [] => false
  | a :: as, b :: bs =>
      if a.toNat < b.toNat then true
      else if b.toNat < a.toNat then false
      else charListLe as bs

/-- Model of Python `a <= b` on strings. -/
def pyStrLe (a b : String) : Bool := charListLe a.data b.data

theorem charListLe_total : ∀ x y : List Char,
    charListLe x y = true ∨ charListLe y x = true := by
  intro x
  induction x with
  | nil => intro y; left; rfl
  | cons a as ih =>
      intro y
      cases y with
      | nil => right; rfl
      | cons b bs =>
          by_cases h1 : a.toNat < b.toNat
          · left; simp [charListLe, h1]
          · by_cases h2 : b.toNat < a.toNat
            · right; simp [charListLe, h2]
            · rcases ih bs with h | h
              · left; simp [charListLe, h1, h2, h]
              · right; simp [charListLe, h1, h2, h]

theorem charListLe_trans : ∀ x y z : List Char,
    charListLe x y = true → charListLe y z = true → charListLe x z = true := by
  intro x
  induction x with
  | nil => intro y z _ _; rfl
  | cons a as ih =>
      intro y z hxy hyz
      cases y with
      | nil => simp [charListLe] at hxy
      | cons b bs =>
          cases z with
          | nil => simp [charListLe] at hyz
          | cons c cs =>
              simp only [charListLe] at hxy hyz ⊢
              by_cases h1 : a.toNat < b.toNat
              · by_cases h2 : b.toNat < c.toNat
                · simp [show a.toNat < c.toNat by omega]
                · by_cases h3 : c.toNat < b.toNat
                  · rw [if_neg h2, if_pos h3] at hyz
                    simp at hyz
                  · simp [show a.toNat < c.toNat by omega]
              · by_cases h4 : b.toNat < a.toNat
                · rw [if_neg h1, if_pos h4] at hxy
                  simp at hxy
                · rw [if_neg h1, if_neg h4] at hxy
                  by_cases h2 : b.toNat < c.toNat
                  · simp [show a.toNat < c.toNat by omega]
                  · by_cases h3 : c.toNat < b.toNat
                    · rw [if_neg h2, if_pos h3] at hyz
                      simp at hyz
                    · rw [if_neg h2, if_neg h3] at hyz
                      rw [if_neg (show ¬ a.toNat < c.toNat by omega),
                        if_neg (show ¬ c.toNat < a.toNat by omega)]
                      exact ih bs cs hxy hyz

theorem pyStrLe_total (x y : String) : pyStrLe x y = true ∨ pyStrLe y x = true :=
  charListLe_total x.data y.data

theorem pyStrLe_trans {x y z : String} (h1 : pyStrLe x y = true)
    (h2 : pyStrLe y z = true) : pyStrLe x z = true :=
  charListLe_trans x.data y.data z.data h1 h2

theorem charListLe_refl (x : List Char) : charListLe x x = true := by
  induction x with
  | nil => rfl
  | cons a as ih => simp [charListLe, ih]

theorem pyStrLe_refl (x : String) : pyStrLe x x = true := charListLe_refl x.data

/-! ## TermNormalizer: character model -/

/-- Association-list lookup (first match), used for the character tables. -/
def tableGet (c : Char) : List (Char × α) → Option α
  | [] => none
  | (k, v) :: rest => if c = k then some v else tableGet c rest

theorem tableGet_eq_none {c : Char} {tbl : List (Char × α)}
    (h : ∀ p ∈ tbl, p.1 ≠ c) : tableGet c tbl = none := by
  induction tbl with
  | nil => rfl
  | cons p rest ih =>
      rw [tableGet, if_neg (fun hc => h p (by simp) (by simp [hc.symm]))]
      exact ih (fun q hq => h q (by simp [hq]))

theorem tableGet_mem {c : Char} {tbl : List (Char × α)} {v : α}
    (h : tableGet c tbl = some v) : (c, v) ∈ tbl := by
  induction tbl with
  | nil => simp [tableGet] at h
  | cons p rest ih =>
      by_cases hc : c = p.1
      · rcases p with ⟨k, w⟩
        rw [tableGet, if_pos hc] at h
        simp only [Option.some.injEq] at h
        simp [hc, h]
      · rcases p with ⟨k, w⟩
        rw [tableGet, if_neg hc] at h
        exact List.mem_cons_of_mem _ (ih h)

/-- Lower-casing table for the accented Latin capitals covered by the
`unidecChar` table below; Python's `str.lower` maps each to its lowercase
form. -/
def latinLowerTable : List (Char × Char) :=
  [('Ä', 'ä'), ('Ö', 'ö'), ('Ü', 'ü'), ('É', 'é'), ('È', 'è'), ('Ê', 'ê'),
   ('Ë', 'ë'), ('Á', 'á'), ('À', 'à'), ('Â', 'â'), ('Í', 'í'), ('Ì', 'ì'),
   ('Î', 'î'), ('Ï', 'ï'), ('Ó', 'ó'), ('Ò', 'ò'), ('Ô', 'ô'), ('Ú', 'ú'),
   ('Ù', 'ù'), ('Û', 'û'), ('Ñ', 'ñ'), ('Ç', 'ç')]

/-- Model of Python `str.lower` on one character: ASCII capitals are lowered
arithmetically, the accented capitals of `latinLowerTable` via the table,
anything else is unchanged. -/
def pyLowerChar (c : Char) : Char :=
  if 65 ≤ c.toNat ∧ c.toNat ≤ 90 then Char.ofNat (c.toNat + 32)
  else (tableGet c latinLowerTable).getD c

/-- Transliteration table for `unidecode`: the lowercase accented Latin
characters, plus codepoints whose transliteration is multi-character
capitalized ASCII (`'€' → "EUR"`, `'中' → "Zhong "` with its trailing space)
— lower-casing runs BEFORE transliteration in `sortable_term`, so such
capitals survive one pass.  Codepoints outside the table map to `""`. -/
def unidecTable : List (Char × List Char) :=
  [('ä', ['a']), ('ö', ['o']), ('ü', ['u']), ('ß', ['s', 's']),
   ('é', ['e']), ('è', ['e']), ('ê', ['e']), ('ë', ['e']),
   ('á', ['a']), ('à', ['a']), ('â', ['a']),
   ('í', ['i']), ('ì', ['i']), ('î', ['i']), ('ï', ['i']),
   ('ó', ['o']), ('ò', ['o']), ('ô', ['o']),
   ('ú', ['u']), ('ù', ['u']), ('û', ['u']),
   ('ñ', ['n']), ('ç', ['c']),
   ('€', ['E', 'U', 'R']), ('中', ['Z', 'h', 'o', 'n', 'g', ' '])]

/-- Model of `unidecode.unidecode` on one character: ASCII is unchanged,
known accented characters transliterate via `unidecTable`, any other
codepoint maps to the empty string. -/
def unidecChar (c : Char) : List Char :=
  if c.toNat ≤ 127 then [c] else (tableGet c unidecTable).getD []

/-- A character that the whole pipeline leaves alone: ASCII and not an ASCII
capital. -/
def semiTame (c : Char) : Bool :=
  decide (c.toNat ≤ 127) && !(decide (65 ≤ c.toNat) && decide (c.toNat ≤ 90))

theorem charOfNat_toNat {n : Nat} (h : n < 55296) : (Char.ofNat n).toNat = n := by
  simp [Char.ofNat, Nat.isValidChar, h, Char.ofNatAux, Char.toNat, UInt32.toNat,
    BitVec.toNat_ofNatLt]

theorem pyLowerChar_semiTame {c : Char} (h : semiTame c = true) :
    pyLowerChar c = c := by
  have h1 : c.toNat ≤ 127 := by
    by_contra hc
    simp [semiTame, hc] at h
  have h2 : ¬(65 ≤ c.toNat ∧ c.toNat ≤ 90) := by
    intro hc
    simp [semiTame, hc.1, hc.2] at h
  rw [pyLowerChar, if_neg h2]
  have hnone : tableGet c latinLowerTable = none := by
    apply tableGet_eq_none
    have hkeys : ∀ p ∈ latinLowerTable, 127 < p.1.toNat := by decide
    intro p hp he
    have h3 := hkeys p hp
    rw [he] at h3
    omega
  rw [hnone]
  rfl

theorem unidecChar_semiTame {c : Char} (h : semiTame c = true) :
    unidecChar c = [c] := by
  have h1 : c.toNat ≤ 127 := by
    by_contra hc
    simp [semiTame, hc] at h
  rw [unidecChar, if_pos h1]

/-! ## TermNormalizer: `sortable_term` -/

/-- The article list of `sortable_term` (duplicates as in the source). -/
def articles : List String :=
  ["die", "der", "das", "ein", "eine",
   "the", "a", "an",
   "el", "la", "los", "las", "un", "una", "unos", "unas",
   "le", "la", "les", "un", "une", "des",
   "il", "lo", "la", "i", "gli", "un", "una", "uno"]

def articlesL : List (List Char) := articles.map String.data

/-- The punctuation characters removed by `sortable_term`'s regex
`[*.:,;…'"/\!?$()=+#<>|‘“¡¿´`]` (apostrophe = 39, backtick = 96). -/
def punctList : List Char :=
  ['*', '.', ':', ',', ';', Char.ofNat 8230, Char.ofNat 39, '"', '/', '\\',
   '!', '?', '$', '(', ')', '=', '+', '#', '<', '>', '|', Char.ofNat 8216,
   Char.ofNat 8220, Char.ofNat 161, Char.ofNat 191, Char.ofNat 180,
   Char.ofNat 96]

def isPunctChar (c : Char) : Bool := decide (c ∈ punctList)

/-- `term.replace("&", "and")` acting on one character. -/
def ampChar (c : Char) : List Char := if c = '&' then ['a', 'n', 'd'] else [c]

/-- `unidecode(term.lower())` on the character list. -/
def preTerm (l : List Char) : List Char := (l.map pyLowerChar).flatMap unidecChar

/-- The tail of `sortable_term` after the article-stripping step:
`term.replace("&", "and")`, the punctuation-removing `re.sub`, and
`term.strip()`. -/
def postArticle (l : List Char) : List Char :=
  pyStrip ((l.flatMap ampChar).filter (fun c => !isPunctChar c))

/-- Model of `sortable_term` (the `str` branch; a `datetime` argument returns
its ISO form and is not modelled here) on a character list: lower-case and
transliterate, drop a leading article when there is more than one
space-separated word, then replace `&`, strip punctuation and surrounding
whitespace. -/
def sortableCore (l : List Char) : List Char :=
  match splitSp (preTerm l) with
  | [] => postArticle (preTerm l)
  | w :: rest =>
      if rest ≠ [] ∧ w ∈ articlesL then postArticle (intercalateSp rest)
      else postArticle (preTerm l)

/-- Model of `sortable_term` on Lean strings. -/
def sortable_term (s : String) : String := ⟨sortableCore s.data⟩

/-- Does the (already normalized) string start with an article followed by at
least one further space-separated word?  This is exactly the condition under
which a second application of `sortable_term` would strip again. -/
def leadingArticle (l : List Char) : Bool :=
  match splitSp l with
  | [] => false
  | w :: rest => decide (rest ≠ []) && decide (w ∈ articlesL)

/-- A fully inert character for the pipeline: lowercase-stable ASCII, not an
ampersand, not stripped punctuation. -/
def tameChar (c : Char) : Bool := semiTame c && !(c == '&') && !isPunctChar c

theorem flatMap_eq_self {f : α → List α} {l : List α}
    (h : ∀ c ∈ l, f c = [c]) : l.flatMap f = l := by
  induction l with
  | nil => rfl
  | cons a l ih =>
      rw [List.flatMap_cons, h a (by simp), ih (fun c hc => h c (by simp [hc]))]
      rfl

theorem map_eq_self {f : α → α} {l : List α} (h : ∀ c ∈ l, f c = c) :
    l.map f = l := by
  induction l with
  | nil => rfl
  | cons a l ih =>
      rw [List.map_cons, h a (by simp), ih (fun c hc => h c (by simp [hc]))]

/-- Unfolding of `sortableCore` once the word split is known. -/
theorem sortableCore_of_split {l : List Char} {w : List Char}
    {rest : List (List Char)} (hsp : splitSp (preTerm l) = w :: rest) :
    sortableCore l =
      if rest ≠ [] ∧ w ∈ articlesL then postArticle (intercalateSp rest)
      else postArticle (preTerm l) := by
  rw [sortableCore.eq_def, hsp]

/-- `sortableCore` always ends with a `pyStrip`. -/
theorem sortableCore_eq_pyStrip (l : List Char) :
    ∃ v, sortableCore l = pyStrip v := by
  rcases hsp : splitSp (preTerm l) with _ | ⟨w, rest⟩
  · exact absurd hsp (splitSp_ne_nil _)
  · rw [sortableCore_of_split hsp]
    by_cases h : rest ≠ [] ∧ w ∈ articlesL
    · rw [if_pos h]
      exact ⟨_, rfl⟩
    · rw [if_neg h]
      exact ⟨_, rfl⟩

/-- Every character of a `postArticle` result is neither an ampersand nor a
stripped punctuation character (the `&`-replacement and the punctuation
filter run after transliteration within the same pass). -/
theorem noAmpPunct_postArticle {u : List Char} :
    ∀ c ∈ postArticle u, c ≠ '&' ∧ isPunctChar c = false := by
  intro c hc
  have h1 := mem_pyStrip hc
  have h2 := List.mem_filter.mp h1
  have hpunct : isPunctChar c = false := by simpa using h2.2
  refine ⟨?_, hpunct⟩
  rcases List.mem_flatMap.mp h2.1 with ⟨d, hd, hcd⟩
  by_cases hamp : d = '&'
  · rw [ampChar, if_pos hamp] at hcd
    have hm : c = 'a' ∨ c = 'n' ∨ c = 'd' := by simpa using hcd
    rcases hm with rfl | rfl | rfl <;> decide
  · rw [ampChar, if_neg hamp] at hcd
    simp only [List.mem_singleton] at hcd
    subst hcd
    exact hamp

/-- Every character of a `sortableCore` result is neither an ampersand nor a
stripped punctuation character. -/
theorem noAmpPunct_sortableCore (l : List Char) :
    ∀ c ∈ sortableCore l, c ≠ '&' ∧ isPunctChar c = false := by
  rcases hsp : splitSp (preTerm l) with _ | ⟨w, rest⟩
  · exact absurd hsp (splitSp_ne_nil _)
  · rw [sortableCore_of_split hsp]
    by_cases h : rest ≠ [] ∧ w ∈ articlesL
    · rw [if_pos h]
      exact noAmpPunct_postArticle
    · rw [if_neg h]
      exact noAmpPunct_postArticle

theorem tameChar_semiTame {c : Char} (h : tameChar c = true) : semiTame c = true := by
  simp only [tameChar, Bool.and_eq_true] at h
  exact h.1.1

theorem preTerm_of_tame {l : List Char} (h : ∀ c ∈ l, tameChar c = true) :
    preTerm l = l := by
  rw [preTerm, map_eq_self (fun c hc => pyLowerChar_semiTame (tameChar_semiTame (h c hc)))]
  exact flatMap_eq_self (fun c hc => unidecChar_semiTame (tameChar_semiTame (h c hc)))

theorem postArticle_of_tame {l : List Char} (h : ∀ c ∈ l, tameChar c = true) :
    postArticle l = pyStrip l := by
  rw [postArticle]
  have hamp : l.flatMap ampChar = l := by
    apply flatMap_eq_self
    intro c hc
    have := h c hc
    simp only [tameChar, Bool.and_eq_true, Bool.not_eq_true', beq_eq_false_iff_ne,
      ne_eq] at this
    rw [ampChar, if_neg this.1.2]
  rw [hamp]
  congr 1
  apply List.filter_eq_self.mpr
  intro c hc
  have := h c hc
  simp only [tameChar, Bool.and_eq_true, Bool.not_eq_true'] at this
  simp [this.2]

/-- A string whose characters are inert, which is already stripped, and whose
first word is not a strippable article, is a fixed point of the
normalization pipeline. -/
theorem sortableCore_fixed {l : List Char}
    (htame : ∀ c ∈ l, tameChar c = true)
    (hstrip : pyStrip l = l)
    (hart : leadingArticle l = false) :
    sortableCore l = l := by
  have hpre : preTerm l = l := preTerm_of_tame htame
  rcases hsp : splitSp l with _ | ⟨w, rest⟩
  · exact absurd hsp (splitSp_ne_nil _)
  · have hsp' : splitSp (preTerm l) = w :: rest := by rw [hpre, hsp]
    rw [sortableCore_of_split hsp']
    have hcond : ¬(rest ≠ [] ∧ w ∈ articlesL) := by
      rw [leadingArticle, hsp] at hart
      intro hc
      simp [hc.1, hc.2] at hart
    rw [if_neg hcond, hpre, postArticle_of_tame htame, hstrip]

theorem pyStrip_sortableCore (l : List Char) :
    pyStrip (sortableCore l) = sortableCore l := by
  obtain ⟨v, hv⟩ := sortableCore_eq_pyStrip l
  rw [hv, pyStrip_pyStrip]

/-! ## Claim C4: idempotence of `sortable_term` -/

/-- C4 (counterexample): `sortable_term` is NOT idempotent.  On `"the a b"`
the first pass strips the article `"the"`, producing `"a b"`; the second pass
then strips the newly exposed article `"a"`, producing `"b"`. -/
theorem sortable_term_not_idempotent :
    sortable_term (sortable_term "the a b") ≠ sortable_term "the a b" := by
  decide

/-- C4 (amended): `sortable_term` is idempotent on every input whose
normalized form both (a) consists only of lower-case-stable ASCII characters
— `str.lower` runs BEFORE `unidecode`, so a transliteration that emits
capitalized ASCII (e.g. `'€' → "EUR"`, `'中' → "Zhong "`) survives the first
pass and is only lower-cased by a second one — and (b) does not itself begin
with an article followed by at least one more space-separated word (stripping
one article, replacing `&`, or removing punctuation can expose a fresh
leading article that only a second pass strips). -/
theorem sortable_term_idempotent_of_tame_output (x : String)
    (hsemi : ∀ c ∈ (sortable_term x).data, semiTame c = true)
    (hart : leadingArticle (sortable_term x).data = false) :
    sortable_term (sortable_term x) = sortable_term x := by
  show (⟨sortableCore (sortableCore x.data)⟩ : String) = ⟨sortableCore x.data⟩
  congr 1
  have htame : ∀ c ∈ sortableCore x.data, tameChar c = true := by
    intro c hc
    have h1 : semiTame c = true := hsemi c hc
    have h2 := noAmpPunct_sortableCore x.data c hc
    simp [tameChar, h1, h2.1, h2.2]
  exact sortableCore_fixed htame (pyStrip_sortableCore x.data) hart

/-- C4 (witness): the amended idempotence theorem applied to the concrete
input `"The Beatles"`, whose normalized form `"beatles"` is lower-case-stable
ASCII with no leading article. -/
theorem sortable_term_idempotent_witness :
    (∀ c ∈ (sortable_term "The Beatles").data, semiTame c = true) ∧
      leadingArticle (sortable_term "The Beatles").data = false ∧
      sortable_term (sortable_term "The Beatles") = sortable_term "The Beatles" :=
  ⟨by decide, by decide,
    sortable_term_idempotent_of_tame_output "The Beatles" (by decide) (by decide)⟩


/-! ## Claim C8: article stripping -/

/-- C8: when the transliterated, lower-cased string splits into a leading
article plus at least one further word, `sortable_term` drops that leading
token and continues the pipeline on the rest; `"The Beatles"` and `"Beatles"`
normalize identically, and the single-token `"The"` is not stripped. -/
theorem sortable_term_article_stripping :
    (∀ (s : String) (w : List Char) (rest : List (List Char)),
        splitSp (preTerm s.data) = w :: rest → rest ≠ [] → w ∈ articlesL →
        sortable_term s = ⟨postArticle (intercalateSp rest)⟩) ∧
      sortable_term "The Beatles" = sortable_term "Beatles" ∧
      sortable_term "The" = "the" := by
  refine ⟨?_, by decide, by decide⟩
  intro s w rest hsp h1 h2
  show (⟨sortableCore s.data⟩ : String) = _
  rw [sortableCore_of_split hsp, if_pos ⟨h1, h2⟩]

/-- C8 (witness): the general article-stripping statement applied to
`"The Beatles"`. -/
theorem sortable_term_article_stripping_witness :
    sortable_term "The Beatles"
      = ⟨postArticle (intercalateSp [['b', 'e', 'a', 't', 'l', 'e', 's']])⟩ :=
  sortable_term_article_stripping.1 "The Beatles"
    ['t', 'h', 'e'] [['b', 'e', 'a', 't', 'l', 'e', 's']]
    (by decide) (by decide) (by decide)

/-! ## Upgrade path: data model -/

/-- An audio track as `upgrade_playlist` observes it: the attributes the code
reads from a plexapi `Audio` object and its first media part.  A plexapi
`bitrate` of `None` is modelled as `0`; the code only uses the bitrate of a
candidate behind the truthiness guard `r.media[0].bitrate and ...`, for which
`None` and `0` are interchangeable. -/
structure Item where
  title : String
  originalTitle : Option String
  grandparentTitle : String
  albumTitle : String
  durationMs : Nat
  audioCodec : String
  bitrate : Int
deriving DecidableEq

/-- Model of `PlexConfig`: `config.get(key)` yields the raw string from the
ini file, or `None` for a missing key. -/
def Config : Type := String → Option String

/-- Python truthiness of `config.get(...)`'s result: `None` and the empty
string are falsy, every other string is truthy. -/
def pyTruthy : Option String → Bool
  | none => false
  | some s => !(s == "")

/-- Model of `artist()`: `item.originalTitle or item.grandparentTitle`
(Python `or`, so an empty-string `originalTitle` also falls back). -/
def artist (item : Item) : String :=
  match item.originalTitle with
  | some s => if s == "" then item.grandparentTitle else s
  | none => item.grandparentTitle

/-- Left-pad a numeral to two digits, as Python's `{...:02d}`. -/
def pad2 (n : Nat) : String := if n < 10 then "0" ++ toString n else toString n

/-- Model of `duration_to_str()`: milliseconds to `MM:SS`. -/
def duration_to_str (duration : Nat) : String :=
  pad2 (duration / 1000 / 60) ++ ":" ++ pad2 (duration / 1000 % 60)

/-- Model of `audio_to_str()`. -/
def audio_to_str (item : Item) : String :=
  artist item ++ " - " ++ item.title ++ " (" ++ item.albumTitle ++ ") [" ++
    duration_to_str item.durationMs ++ "][" ++ item.audioCodec ++ "][" ++
    toString item.bitrate ++ "]"

/-- Model of `check_quality_requirements()`: `force_all` truthy fails
everything; `force_lossless` truthy passes exactly ALAC/FLAC; otherwise fail
exactly mp3 below 320 kbps and aac below 256 kbps. -/
def check_quality_requirements (config : Config) (item : Item) : Bool :=
  if pyTruthy (config "upgrade.force_all") then false
  else if pyTruthy (config "upgrade.force_lossless") then
    item.audioCodec == "alac" || item.audioCodec == "flac"
  else
    !(item.audioCodec == "mp3" && decide (item.bitrate < 320)
      || item.audioCodec == "aac" && decide (item.bitrate < 256))

/-- Model of Python `str.casefold()` for the characters in scope: lower-case
each character, with `ß → "ss"`. -/
def pyCasefold (s : String) : String :=
  ⟨s.data.flatMap (fun c => if c = 'ß' then ['s', 's'] else [pyLowerChar c])⟩

/-- Model of Python substring membership `needle in big` on strings. -/
def pyInStr (needle big : String) : Bool := containsSub big.data needle.data

/-- The two filters of `upgrade_playlist` over the search results: keep
candidates with a truthy bitrate strictly above the item's, then keep those
whose artist (case-folded) contains the item's artist as a substring. -/
def filter_replacements (item : Item) (searchResults : List Item) : List Item :=
  let byBitrate := searchResults.filter
    (fun r => !(r.bitrate == 0) && decide (item.bitrate < r.bitrate))
  byBitrate.filter (fun r => pyInStr (pyCasefold (artist item)) (pyCasefold (artist r)))

/-- The sort key of the first ranking pass:
`getattr(x, "originalTitle") if ... is not None else getattr(x, "grandparentTitle")`
(note: `is not None`, and no normalization). -/
def rankArtistKey (x : Item) : String :=
  match x.originalTitle with
  | some s => s
  | none => x.grandparentTitle

/-- The ranking of `upgrade_playlist`: filter, then a stable ascending sort on
the raw artist key, then a stable descending sort on the bitrate. -/
def rank_replacements (item : Item) (searchResults : List Item) : List Item :=
  let reps := filter_replacements item searchResults
  let reps := sortBy (fun a b => pyStrLe (rankArtistKey a) (rankArtistKey b)) reps
  sortBy (fun a b => decide (b.bitrate ≤ a.bitrate)) reps

/-! ## Claim C1: the quality gate -/

/-- C1: `check_quality_requirements` returns false whenever `force_all` is
truthy; otherwise with `force_lossless` truthy it passes exactly ALAC/FLAC;
otherwise it fails exactly mp3 strictly below 320 kbps and aac strictly below
256 kbps. -/
theorem check_quality_characterization (config : Config) (item : Item) :
    (pyTruthy (config "upgrade.force_all") = true →
      check_quality_requirements config item = false) ∧
    (pyTruthy (config "upgrade.force_all") = false →
      pyTruthy (config "upgrade.force_lossless") = true →
      (check_quality_requirements config item = true ↔
        item.audioCodec = "alac" ∨ item.audioCodec = "flac")) ∧
    (pyTruthy (config "upgrade.force_all") = false →
      pyTruthy (config "upgrade.force_lossless") = false →
      (check_quality_requirements config item = false ↔
        (item.audioCodec = "mp3" ∧ item.bitrate < 320) ∨
        (item.audioCodec = "aac" ∧ item.bitrate < 256))) := by
  refine ⟨fun h => ?_, fun h1 h2 => ?_, fun h1 h2 => ?_⟩
  · simp [check_quality_requirements, h]
  · simp [check_quality_requirements, h1, h2]
  · simp only [check_quality_requirements, h1, h2, Bool.false_eq_true, if_false]
    constructor
    · intro h
      simp only [Bool.not_eq_false', Bool.or_eq_true, Bool.and_eq_true,
        beq_iff_eq, decide_eq_true_eq] at h
      exact h
    · intro h
      simp only [Bool.not_eq_false', Bool.or_eq_true, Bool.and_eq_true,
        beq_iff_eq, decide_eq_true_eq]
      exact h

/-- The empty configuration: every `config.get` returns `None`. -/
def cfgDefaults : Config := fun _ => none

/-- A configuration whose `upgrade.force_all` is the *string* `"false"`. -/
def cfgForceAllFalseStr : Config :=
  fun k => if k = "upgrade.force_all" then some "false" else none

def trackMp319 : Item :=
  { title := "t", originalTitle := some "a", grandparentTitle := "g",
    albumTitle := "al", durationMs := 60000, audioCodec := "mp3", bitrate := 319 }

def trackMp320 : Item := { trackMp319 with bitrate := 320 }

def trackFlac128 : Item := { trackMp319 with audioCodec := "flac", bitrate := 128 }

/-- C1 (witness): the boundary cases of the claim — mp3@319 fails, mp3@320
passes, flac@128 passes with the default policy, and everything fails once
`force_all` is truthy. -/
theorem check_quality_characterization_witness :
    check_quality_requirements cfgDefaults trackMp319 = false ∧
      check_quality_requirements cfgDefaults trackMp320 = true ∧
      check_quality_requirements cfgDefaults trackFlac128 = true ∧
      check_quality_requirements cfgForceAllFalseStr trackFlac128 = false := by
  refine ⟨?_, ?_, ?_, ?_⟩
  · exact ((check_quality_characterization cfgDefaults trackMp319).2.2 rfl rfl).mpr
      (Or.inl ⟨rfl, by decide⟩)
  · by_contra h
    have := ((check_quality_characterization cfgDefaults trackMp320).2.2 rfl rfl).mp
      (by simpa using h)
    rcases this with ⟨_, h'⟩ | ⟨hc, _⟩
    · exact absurd h' (by decide)
    · exact absurd hc (by decide)
  · by_contra h
    have := ((check_quality_characterization cfgDefaults trackFlac128).2.2 rfl rfl).mp
      (by simpa using h)
    rcases this with ⟨hc, _⟩ | ⟨hc, _⟩ <;> exact absurd hc (by decide)
  · exact (check_quality_characterization cfgForceAllFalseStr trackFlac128).1 rfl

/-! ## Claim C10: flags read by Python truthiness -/

/-- C10: the upgrade flags are interpreted by `bool()` on the raw config
string, so ANY non-empty string — including `"false"` or `"0"` — enables the
flag: with `force_all` set to any non-empty string every item fails, and with
`force_all` falsy but `force_lossless` any non-empty string only ALAC/FLAC
pass. -/
theorem config_flags_truthiness (config : Config) (item : Item) (s t : String) :
    (config "upgrade.force_all" = some s → s ≠ "" →
      check_quality_requirements config item = false) ∧
    (pyTruthy (config "upgrade.force_all") = false →
      config "upgrade.force_lossless" = some t → t ≠ "" →
      (check_quality_requirements config item = true ↔
        item.audioCodec = "alac" ∨ item.audioCodec = "flac")) := by
  constructor
  · intro hs hne
    have : pyTruthy (config "upgrade.force_all") = true := by
      rw [hs]
      simpa [pyTruthy] using hne
    exact (check_quality_characterization config item).1 this
  · intro h1 ht hne
    have : pyTruthy (config "upgrade.force_lossless") = true := by
      rw [ht]
      simpa [pyTruthy] using hne
    exact (check_quality_characterization config item).2.1 h1 this

/-- C10 (witness): with `force_all = "false"` (a truthy non-empty string) the
mp3@320 track that passes the default policy now fails. -/
theorem config_flags_truthiness_witness :
    check_quality_requirements cfgForceAllFalseStr trackMp320 = false :=
  (config_flags_truthiness cfgForceAllFalseStr trackMp320 "false" "").1 rfl
    (by decide)

/-! ## Claim C2: replacement ranking -/

/-- Modelled from the spec (§4.4 step 4, for comparison with the code): the
ranking whose tie-break key is the NORMALIZED resolved-artist string, i.e.
`sortable_term` applied to the resolved artist, as the claim words it.  The
code itself (`rank_replacements`) sorts on the raw attribute instead. -/
def rank_replacements_specNormalized (item : Item) (searchResults : List Item) :
    List Item :=
  let reps := filter_replacements item searchResults
  let reps := sortBy
    (fun a b => pyStrLe (sortable_term (rankArtistKey a))
      (sortable_term (rankArtistKey b))) reps
  sortBy (fun a b => decide (b.bitrate ≤ a.bitrate)) reps

def cexUpgradeItem : Item :=
  { title := "t", originalTitle := some "b", grandparentTitle := "g",
    albumTitle := "al", durationMs := 60000, audioCodec := "mp3", bitrate := 100 }

/-- Candidate with raw artist `"B"`: normalizes to `"b"`. -/
def cexCandCapB : Item := { cexUpgradeItem with originalTitle := some "B", bitrate := 320 }

/-- Candidate with raw artist `"ab"`: raw-compares above `"B"` (codepoint 97
vs 66) but normalized-compares below `"b"`. -/
def cexCandAb : Item := { cexUpgradeItem with originalTitle := some "ab", bitrate := 320 }

/-- C2 (counterexample): the code ranks equal-bitrate candidates by the RAW
resolved-artist string, not the normalized one.  With artists `"B"` and
`"ab"` at equal bitrate the code yields `["B", "ab"]` (codepoint order) while
the normalized tie-break required by the claim yields `["ab", "B"]`. -/
theorem rank_replacements_raw_tiebreak_counterexample :
    rank_replacements cexUpgradeItem [cexCandCapB, cexCandAb]
        = [cexCandCapB, cexCandAb] ∧
      rank_replacements_specNormalized cexUpgradeItem [cexCandCapB, cexCandAb]
        = [cexCandAb, cexCandCapB] ∧
      rank_replacements cexUpgradeItem [cexCandCapB, cexCandAb]
        ≠ rank_replacements_specNormalized cexUpgradeItem
            [cexCandCapB, cexCandAb] := by
  refine ⟨by decide, by decide, ?_⟩
  intro h
  rw [show rank_replacements cexUpgradeItem [cexCandCapB, cexCandAb]
      = [cexCandCapB, cexCandAb] by decide,
    show rank_replacements_specNormalized cexUpgradeItem [cexCandCapB, cexCandAb]
      = [cexCandAb, cexCandCapB] by decide] at h
  exact absurd h (by decide)

def exItem192 : Item :=
  { title := "t", originalTitle := some "Artist", grandparentTitle := "g",
    albumTitle := "al", durationMs := 60000, audioCodec := "mp3", bitrate := 192 }

def exCand256C : Item := { exItem192 with originalTitle := some "Artist C", bitrate := 256 }
def exCand320B : Item := { exItem192 with originalTitle := some "Artist B", bitrate := 320 }
def exCand320A : Item := { exItem192 with originalTitle := some "Artist A", bitrate := 320 }
def exCand192D : Item := { exItem192 with originalTitle := some "Artist D", bitrate := 192 }

/-- C2 (amended): the surviving candidates are ranked by descending bitrate
with ties broken by the RAW resolved-artist string (ascending, codepoint
order); on the claim's concrete example ([256, 320, 320, 192] with the
320-pair artists "Artist B" and "Artist A") the ranked list is
["Artist A"@320, "Artist B"@320, @256]. -/
theorem rank_replacements_ordering (item : Item) (results : List Item) :
    (rank_replacements item results).Pairwise
        (fun a b => b.bitrate ≤ a.bitrate) ∧
      (∀ v : Int, ((rank_replacements item results).filter
          (fun r => r.bitrate == v)).Pairwise
        (fun a b => pyStrLe (rankArtistKey a) (rankArtistKey b) = true)) ∧
      rank_replacements exItem192 [exCand256C, exCand320B, exCand320A, exCand192D]
        = [exCand320A, exCand320B, exCand256C] := by
  refine ⟨?_, ?_, by decide⟩
  · have h := pairwise_sortBy (fun a b => decide (b.bitrate ≤ a.bitrate))
      (sortBy (fun a b => pyStrLe (rankArtistKey a) (rankArtistKey b))
        (filter_replacements item results))
      (fun x y => by
        rcases Int.le_total y.bitrate x.bitrate with h | h
        · exact Or.inl (by simpa using h)
        · exact Or.inr (by simpa using h))
      (fun x y z hxy hyz => by
        simp only [decide_eq_true_eq] at hxy hyz ⊢
        omega)
    exact h.imp (fun hab => by simpa using hab)
  · intro v
    have hstable : (rank_replacements item results).filter (fun r => r.bitrate == v)
        = (sortBy (fun a b => pyStrLe (rankArtistKey a) (rankArtistKey b))
            (filter_replacements item results)).filter (fun r => r.bitrate == v) := by
      apply filter_sortBy_stable
      intro x y hx hy
      simp only [beq_iff_eq] at hx hy
      simp [hx, hy]
    rw [hstable]
    have hsorted := pairwise_sortBy
      (fun a b => pyStrLe (rankArtistKey a) (rankArtistKey b))
      (filter_replacements item results)
      (fun x y => pyStrLe_total _ _)
      (fun x y z => pyStrLe_trans)
    exact List.Pairwise.sublist (List.filter_sublist _) hsorted

/-! ## The `question` prompt and manual replacement selection -/

/-- The abort entry appended to every choice list. -/
def abortChoice : String := "❌ Abort"

/-- Model of `question()`: with a single item it is returned immediately (no
prompt); otherwise the choice list is `"None"` (when requested) followed by
the item strings and the abort entry, the external chooser picks one of the
strings, abort exits the program (`Except.error ()`), and the answer is
resolved back to the first item with that string (`None`, or an unmatched
answer, resolves to `none`). -/
def question (items : List α) (attr : α → String) (noneChoice : Bool)
    (chooser : List String → String) : Except Unit (Option α) :=
  match items with
  | [item] => .ok (some item)
  | _ =>
      let choices := (if noneChoice then ["None"] else [])
        ++ items.map attr ++ [abortChoice]
      let answer := chooser choices
      if answer = abortChoice then .error ()
      else .ok (items.find? (fun i => attr i == answer))

/-- The choice list `question` shows in manual replacement mode. -/
def questionChoices (reps : List Item) : List String :=
  ["None"] ++ reps.map audio_to_str ++ [abortChoice]

/-- Outcome of the manual replacement branch for one failing item. -/
inductive UpDecision where
  | replaced (r : Item)
  | deferredDec
  | abortRun
deriving DecidableEq

/-- Model of the manual replacement branch of `upgrade_playlist` (lines
813-838): ask `question` over the ranked candidates with a `"None"` option; a
falsy result (None) leaves the item omitted, otherwise the chosen track
replaces it. -/
def manual_replacement (reps : List Item) (chooser : List String → String) :
    UpDecision :=
  match question reps audio_to_str true chooser with
  | .error () => .abortRun
  | .ok (some r) => .replaced r
  | .ok none => .deferredDec

def cexSingleCand : Item :=
  { title := "s", originalTitle := some "Artist", grandparentTitle := "g",
    albumTitle := "al", durationMs := 61000, audioCodec := "flac", bitrate := 900 }

/-- C5 (counterexample): with EXACTLY ONE candidate the chooser is never
consulted — `question` short-circuits on a singleton list — so a chooser
answering `"None"` is ignored and the candidate is selected anyway, instead
of the deferred decision the claim requires. -/
theorem manual_replacement_singleton_counterexample :
    manual_replacement [cexSingleCand] (fun _ => "None")
        = UpDecision.replaced cexSingleCand ∧
      manual_replacement [cexSingleCand] (fun _ => "None")
        ≠ UpDecision.deferredDec := by
  exact ⟨rfl, by decide⟩

/-- C5 (amended): with exactly one candidate that candidate is chosen
automatically, without consulting the chooser; with two or more candidates
the full ranked list plus a `"None"` option (and an abort entry) is presented
to the chooser and its answer is used — `"None"` (when no candidate renders
as the string `"None"`) defers, and an answer matching a candidate replaces
with the first candidate bearing that string. -/
theorem manual_replacement_uses_chooser (reps : List Item)
    (chooser : List String → String) :
    (∀ c, reps = [c] → manual_replacement reps chooser = .replaced c) ∧
      (2 ≤ reps.length →
        (chooser (questionChoices reps) = "None" →
          (∀ r ∈ reps, audio_to_str r ≠ "None") →
          manual_replacement reps chooser = .deferredDec) ∧
        (∀ r, chooser (questionChoices reps) ≠ abortChoice →
          reps.find? (fun i => audio_to_str i == chooser (questionChoices reps))
            = some r →
          manual_replacement reps chooser = .replaced r)) := by
  constructor
  · rintro c rfl
    rfl
  · intro hlen
    have hne : ∀ c, reps ≠ [c] := by
      intro c hc
      rw [hc] at hlen
      simp at hlen
    have hq : question reps audio_to_str true chooser
        = (if chooser (questionChoices reps) = abortChoice then .error ()
           else .ok (reps.find?
             (fun i => audio_to_str i == chooser (questionChoices reps)))) := by
      rw [question.eq_def]
      match reps, hlen with
      | a :: b :: rest, _ => rfl
    constructor
    · intro hans hnone
      have hfind : reps.find?
          (fun i => audio_to_str i == chooser (questionChoices reps)) = none := by
        apply List.find?_eq_none.mpr
        intro x hx
        simp only [beq_iff_eq, hans]
        exact hnone x hx
      rw [manual_replacement, hq, if_neg (by rw [hans]; decide), hfind]
    · intro r habort hfind
      rw [manual_replacement, hq, if_neg habort, hfind]

/-- C5 (witness): with two candidates and a chooser answering `"None"` the
decision really is deferred. -/
theorem manual_replacement_uses_chooser_witness :
    manual_replacement [cexSingleCand, exCand320A] (fun _ => "None")
      = UpDecision.deferredDec :=
  ((manual_replacement_uses_chooser [cexSingleCand, exCand320A]
      (fun _ => "None")).2 (by decide)).1 rfl (by decide)

/-! ## `upgrade_playlist` -/

/-- Python `re.sub(r"[^\w\s]", "", s)` used to clean search terms: keep word
characters (letters, digits, underscore; non-ASCII codepoints are treated as
word characters) and whitespace. -/
def searchCleanup (s : String) : String :=
  ⟨s.data.filter (fun c =>
    c.isAlpha || c.isDigit || c = '_' || isPySpace c || decide (127 < c.toNat))⟩

/-- A side effect `upgrade_playlist` can perform against the library. -/
inductive Effect where
  | createPlaylist (items : List Item)
  | removeItems (items : List Item)
  | addItems (items : List Item)
deriving DecidableEq

/-- The per-item analysis loop of `upgrade_playlist` (lines 763-841): for
each item failing the quality gate, search the library (the search is an
oracle taking the cleaned title and artist), filter and rank the candidates,
and in simple mode take the top-ranked candidate while in manual mode ask the
chooser; collect `(items_to_remove, items_to_add, items_ommited)` in
iteration order.  An abort inside `question` ends the program
(`Except.error ()`). -/
def upgradeLoop (config : Config) (search : String → String → List Item)
    (simpleMode : Bool) (chooser : List String → String) :
    List Item → Except Unit (List Item × List Item × List Item)
  | [] => .ok ([], [], [])
  | item :: rest =>
      if check_quality_requirements config item then
        upgradeLoop config search simpleMode chooser rest
      else
        let results := search (searchCleanup item.title) (searchCleanup (artist item))
        match rank_replacements item results with
        | [] =>
            (upgradeLoop config search simpleMode chooser rest).map
              (fun (rem, add, om) => (rem, add, item :: om))
        | top :: more =>
            if simpleMode then
              (upgradeLoop config search simpleMode chooser rest).map
                (fun (rem, add, om) => (item :: rem, top :: add, om))
            else
              match manual_replacement (top :: more) chooser with
              | .abortRun => .error ()
              | .replaced rep =>
                  (upgradeLoop config search simpleMode chooser rest).map
                    (fun (rem, add, om) => (item :: rem, rep :: add, om))
              | .deferredDec =>
                  (upgradeLoop config search simpleMode chooser rest).map
                    (fun (rem, add, om) => (rem, add, item :: om))

/-- Result of `upgrade_playlist`: the library effects performed, whether the
run was aborted from inside a prompt, and the final contents of the playlist
being upgraded (the duplicate when one was created, else the selected one). -/
structure UpgradeResult where
  effects : List Effect
  aborted : Bool
  playlistItems : List Item
deriving DecidableEq

/-- Model of `upgrade_playlist()`: when `duplicate` and not `dry`, first
create a copy with the same items and work on it; run the analysis loop; then
only when not `dry` call `removeItems` on the collected removals (if any) and
`addItems` on the collected additions (if any).  `removeItems` removes every
listed item from the playlist, `addItems` appends. -/
def upgrade_playlist (config : Config) (search : String → String → List Item)
    (chooser : List String → String) (items : List Item)
    (duplicate simpleMode dry : Bool) : UpgradeResult :=
  let createFx : List Effect :=
    if duplicate && !dry then [.createPlaylist items] else []
  match upgradeLoop config search simpleMode chooser items with
  | .error () => { effects := createFx, aborted := true, playlistItems := items }
  | .ok (toRemove, toAdd, _) =>
      if dry then
        { effects := createFx, aborted := false, playlistItems := items }
      else
        let fx1 : List Effect :=
          if toRemove.length ≠ 0 then [.removeItems toRemove] else []
        let fx2 : List Effect :=
          if toAdd.length ≠ 0 then [.addItems toAdd] else []
        { effects := createFx ++ fx1 ++ fx2,
          aborted := false,
          playlistItems := items.filter (fun i => !(toRemove.contains i)) ++ toAdd }

/-! ## Claim C9: dry runs modify nothing -/

/-- C9: with `dry = True`, `upgrade_playlist` performs no library effect at
all — no playlist is created and `removeItems` / `addItems` are never called
— and the selected playlist's contents are unchanged, for every
configuration, search oracle, chooser and mode. -/
theorem upgrade_playlist_dry_run_pure (config : Config)
    (search : String → String → List Item) (chooser : List String → String)
    (items : List Item) (duplicate simpleMode : Bool) :
    (upgrade_playlist config search chooser items duplicate simpleMode true).effects
        = [] ∧
      (upgrade_playlist config search chooser items duplicate simpleMode
          true).playlistItems = items := by
  rw [upgrade_playlist]
  rcases upgradeLoop config search simpleMode chooser items with _ | ⟨rem, add, om⟩
  · simp
  · simp

/-! ## Sorter: dynamic attribute model -/

/-- A Python attribute value as `sort_playlist` can encounter it: a string, a
`datetime` (carried as its ISO form), an integer (e.g. `duration`, `year`),
or `None`. -/
inductive PyValue where
  | vStr (s : String)
  | vDt (iso : String)
  | vInt (n : Int)
  | vNone
deriving DecidableEq

/-- A playlist item as the sorter sees it: a bag of named attributes.
`getattr` on a name that is absent from the item type raises. -/
structure SItem where
  attrs : List (String × PyValue)
deriving DecidableEq

/-- Python errors the sorter can raise.  `invalidKeyError` does not occur
anywhere in the source; it is modelled from the spec (§7) purely so that the
error the code actually raises can be compared against the one the spec
names. -/
inductive PyErr where
  | attributeError (name : String)
  | invalidKeyError
deriving DecidableEq

/-- Model of `getattr(x, name)`. -/
def getattrE (x : SItem) (name : String) : Except PyErr PyValue :=
  match x.attrs.find? (fun p => p.1 == name) with
  | some p => .ok p.2
  | none => .error (.attributeError name)

/-- `sortable_term` applied to a dynamic value: `datetime` returns
`isoformat()`, a string is normalized, and any other type raises
`AttributeError` at `term.lower()` (`int` and `NoneType` have no `lower`). -/
def sortableTermV : PyValue → Except PyErr String
  | .vDt iso => .ok iso
  | .vStr s => .ok (sortable_term s)
  | .vInt _ => .error (.attributeError "lower")
  | .vNone => .error (.attributeError "lower")

/-- The sort-key computation of `sort_playlist`:
`sortable_term(getattr(x, key)) if getattr(x, key) is not None else
sortable_term(getattr(x, backupKey))`. -/
def keyOfE (x : SItem) (key backupKey : String) : Except PyErr String := do
  let v ← getattrE x key
  if v ≠ .vNone then sortableTermV v
  else do
    let b ← getattrE x backupKey
    sortableTermV b

/-- String comparison in the requested direction: the comparison a stable
`sorted(..., reverse=r)` effectively uses (equal keys stay in input order in
both directions). -/
def dirStrLe (reverse : Bool) (a b : String) : Bool :=
  if reverse then pyStrLe b a else pyStrLe a b

theorem dirStrLe_total (reverse : Bool) (a b : String) :
    dirStrLe reverse a b = true ∨ dirStrLe reverse b a = true := by
  cases reverse
  · simpa [dirStrLe] using pyStrLe_total a b
  · simpa [dirStrLe] using (pyStrLe_total b a)

theorem dirStrLe_trans {reverse : Bool} {a b c : String}
    (h1 : dirStrLe reverse a b = true) (h2 : dirStrLe reverse b c = true) :
    dirStrLe reverse a c = true := by
  cases reverse
  · rw [dirStrLe, if_neg (by simp)] at h1 h2 ⊢
    exact pyStrLe_trans h1 h2
  · rw [dirStrLe, if_pos rfl] at h1 h2 ⊢
    exact pyStrLe_trans h2 h1

theorem dirStrLe_refl (reverse : Bool) (a : String) : dirStrLe reverse a a = true := by
  cases reverse <;> simp [dirStrLe, pyStrLe_refl]

/-- One `sorted(items, key=f, reverse=r)` call with a raising key function:
all keys are computed first (in list order, first raise propagating), then a
stable sort on the key runs. -/
def sortPassE (f : SItem → Except PyErr String) (reverse : Bool)
    (items : List SItem) : Except PyErr (List SItem) :=
  match mapE (fun i => (f i).map (fun k => (i, k))) items with
  | .error e => .error e
  | .ok dec =>
      .ok ((sortBy (fun a b => dirStrLe reverse a.2 b.2) dec).map Prod.fst)

/-- The non-shuffle sorting of `sort_playlist` (lines 653-672): when a truthy
`secondary_sort_key` is configured and the playlist is an audio playlist,
first sort by the secondary key, then stable-sort by the primary key; both
passes share the same `reverse` flag. -/
def sort_playlist_items (sortKey backupSortKey secondarySortKey
    backupSecondarySortKey : String) (sortReverse : Bool) (isAudio : Bool)
    (items : List SItem) : Except PyErr (List SItem) := do
  let items1 ←
    if secondarySortKey ≠ "" ∧ isAudio then
      sortPassE (fun x => keyOfE x secondarySortKey backupSecondarySortKey)
        sortReverse items
    else
      pure items
  sortPassE (fun x => keyOfE x sortKey backupSortKey) sortReverse items1

/-- Result of `sort_playlist` as the caller observes it: the value the sort
produced (or the raised error), together with the contents of the caller's
item list after the call — `random.shuffle(items)` rearranges that list in
place, while `sorted(...)` builds new lists and leaves it untouched. -/
structure SortOutcome where
  result : Except PyErr (List SItem)
  callerItems : List SItem

/-- Model of `sort_playlist()`'s item-ordering behaviour.  `items` is the
caller's list (`playlist.items()`), `shuffleOutcome` is the permutation the
`random.shuffle` RNG draw produces on it.  With `sort_key == "shuffle"` the
code runs `random.shuffle(items)` — mutating the caller's list — and then
uses that list; otherwise it rebinds `items` to new `sorted(...)` lists and
the caller's list is untouched. -/
def sort_playlist (shuffleOutcome : List SItem → List SItem)
    (sortKey backupSortKey secondarySortKey backupSecondarySortKey : String)
    (sortReverse : Bool) (isAudio : Bool) (items : List SItem) : SortOutcome :=
  if sortKey = "shuffle" then
    { result := .ok (shuffleOutcome items), callerItems := shuffleOutcome items }
  else
    { result := sort_playlist_items sortKey backupSortKey secondarySortKey
        backupSecondarySortKey sortReverse isAudio items,
      callerItems := items }

/-- A sort pass whose key function succeeds on every element reduces to a
pure stable sort on that key. -/
theorem sortPassE_ok {f : SItem → Except PyErr String} {g : SItem → String}
    {items : List SItem} (h : ∀ i ∈ items, f i = .ok (g i)) (reverse : Bool) :
    sortPassE f reverse items
      = .ok (sortBy (fun a b => dirStrLe reverse (g a) (g b)) items) := by
  rw [sortPassE,
    mapE_ok_of_forall (g := fun i => (i, g i)) items
      (fun i hi => by show (f i).map _ = _; rw [h i hi]; rfl)]
  show Except.ok ((sortBy (fun a b => dirStrLe reverse a.2 b.2)
      (items.map (fun i => (i, g i)))).map Prod.fst) = _
  rw [sortBy_map_decorate (dirStrLe reverse) g items, List.map_map]
  exact congrArg Except.ok (map_eq_self (fun c _ => rfl))

/-- A sort pass fails (with the first raised error) as soon as the key
function fails on some element. -/
theorem sortPassE_error {f : SItem → Except PyErr String} {items : List SItem}
    {i : SItem} {e : PyErr} (hmem : i ∈ items) (hi : f i = .error e)
    (reverse : Bool) : ∃ e', sortPassE f reverse items = .error e' := by
  have hfi : (fun j => (f j).map (fun k => (j, k))) i = .error e := by
    show (f i).map (fun k => (i, k)) = .error e
    rw [hi]
    rfl
  obtain ⟨e', he'⟩ := mapE_error_of_mem
    (f := fun j => (f j).map (fun k => (j, k))) hmem hfi
  exact ⟨e', by rw [sortPassE, he']⟩

/-! ## Claim C3: secondary-then-primary stable sorting -/

/-- C3: when a secondary key is configured on an audio playlist, the sorter
runs the secondary-key pass first and a stable primary-key pass second, both
reversed together; consequently the output is a permutation of the input,
ordered by the primary key in the requested direction, and within every group
of equal primary keys the items are ordered by the secondary key in that same
direction. -/
theorem sort_playlist_secondary_grouping (items : List SItem) (reverse : Bool)
    (sortKey backupSortKey secondarySortKey backupSecondarySortKey : String)
    (sec prim : SItem → String)
    (hsec : ∀ i ∈ items,
      keyOfE i secondarySortKey backupSecondarySortKey = .ok (sec i))
    (hprim : ∀ i ∈ items, keyOfE i sortKey backupSortKey = .ok (prim i))
    (hconf : secondarySortKey ≠ "") :
    ∃ out,
      sort_playlist_items sortKey backupSortKey secondarySortKey
          backupSecondarySortKey reverse true items = .ok out ∧
        out.Perm items ∧
        out.Pairwise (fun a b => dirStrLe reverse (prim a) (prim b) = true) ∧
        ∀ v : String, (out.filter (fun i => prim i == v)).Pairwise
          (fun a b => dirStrLe reverse (sec a) (sec b) = true) := by
  set l1 := sortBy (fun a b => dirStrLe reverse (sec a) (sec b)) items with hl1
  have hpass1 : sortPassE
      (fun x => keyOfE x secondarySortKey backupSecondarySortKey) reverse items
      = .ok l1 := sortPassE_ok hsec reverse
  have hprim1 : ∀ i ∈ l1, keyOfE i sortKey backupSortKey = .ok (prim i) :=
    fun i hi => hprim i (mem_sortBy.mp hi)
  have hpass2 : sortPassE (fun x => keyOfE x sortKey backupSortKey) reverse l1
      = .ok (sortBy (fun a b => dirStrLe reverse (prim a) (prim b)) l1) :=
    sortPassE_ok hprim1 reverse
  refine ⟨sortBy (fun a b => dirStrLe reverse (prim a) (prim b)) l1, ?_, ?_, ?_, ?_⟩
  · rw [sort_playlist_items]
    rw [if_pos ⟨hconf, rfl⟩]
    rw [hpass1]
    show sortPassE (fun x => keyOfE x sortKey backupSortKey) reverse l1 = _
    exact hpass2
  · exact (sortBy_perm _ l1).trans (sortBy_perm _ items)
  · exact pairwise_sortBy (fun a b => dirStrLe reverse (prim a) (prim b)) l1
      (fun x y => dirStrLe_total reverse (prim x) (prim y))
      (fun x y z => dirStrLe_trans)
  · intro v
    have hstable : (sortBy (fun a b => dirStrLe reverse (prim a) (prim b))
          l1).filter (fun i => prim i == v)
        = l1.filter (fun i => prim i == v) := by
      apply filter_sortBy_stable
      intro x y hx hy
      simp only [beq_iff_eq] at hx hy
      rw [hx, hy]
      exact dirStrLe_refl reverse v
    rw [hstable]
    exact List.Pairwise.sublist (List.filter_sublist _)
      (pairwise_sortBy (fun a b => dirStrLe reverse (sec a) (sec b)) items
        (fun x y => dirStrLe_total reverse (sec x) (sec y))
        (fun x y z => dirStrLe_trans))

instance {ε α : Type} [DecidableEq ε] [DecidableEq α] :
    DecidableEq (Except ε α) := fun a b =>
  match a, b with
  | .error x, .error y =>
      if h : x = y then .isTrue (by rw [h]) else .isFalse (by simp [h])
  | .ok x, .ok y =>
      if h : x = y then .isTrue (by rw [h]) else .isFalse (by simp [h])
  | .error _, .ok _ => .isFalse (by simp)
  | .ok _, .error _ => .isFalse (by simp)

def witTrackA : SItem :=
  ⟨[("parentTitle", .vStr "Album X"), ("originalTitle", .vStr "Zed"),
    ("grandparentTitle", .vStr "GP")]⟩

def witTrackB : SItem :=
  ⟨[("parentTitle", .vStr "Album X"), ("originalTitle", .vNone),
    ("grandparentTitle", .vStr "Alpha")]⟩

def witTrackC : SItem :=
  ⟨[("parentTitle", .vStr "Album B"), ("originalTitle", .vStr "Mike"),
    ("grandparentTitle", .vStr "GP")]⟩

/-- C3 (witness): the grouping theorem applied to a concrete 3-track audio
playlist sorted by album name with artist as secondary key (the secondary key
of `witTrackB` resolving through the backup key). -/
theorem sort_playlist_secondary_grouping_witness :
    ∃ out,
      sort_playlist_items "parentTitle" "parentTitle" "originalTitle"
          "grandparentTitle" false true [witTrackA, witTrackB, witTrackC]
          = .ok out ∧
        out.Perm [witTrackA, witTrackB, witTrackC] ∧
        out.Pairwise (fun a b => dirStrLe false
          ((fun i => if i = witTrackC then "album b" else "album x") a)
          ((fun i => if i = witTrackC then "album b" else "album x") b) = true) ∧
        ∀ v : String, (out.filter (fun i =>
            (fun i => if i = witTrackC then "album b" else "album x") i
              == v)).Pairwise
          (fun a b => dirStrLe false
            ((fun i => if i = witTrackA then "zed"
                else if i = witTrackB then "alpha" else "mike") a)
            ((fun i => if i = witTrackA then "zed"
                else if i = witTrackB then "alpha" else "mike") b) = true) :=
  sort_playlist_secondary_grouping [witTrackA, witTrackB, witTrackC] false
    "parentTitle" "parentTitle" "originalTitle" "grandparentTitle"
    (fun i => if i = witTrackA then "zed"
      else if i = witTrackB then "alpha" else "mike")
    (fun i => if i = witTrackC then "album b" else "album x")
    (by decide) (by decide) (by decide)

/-! ## Claim C6: mutation of the caller's sequence -/

def vidItemA : SItem := ⟨[("title", .vStr "a")]⟩
def vidItemB : SItem := ⟨[("title", .vStr "b")]⟩

/-- C6 (counterexample): in shuffle mode the code calls
`random.shuffle(items)`, which rearranges the caller's list in place: for the
RNG draw that reverses the two-element list, the caller's sequence afterwards
is `[b, a]`, not the original `[a, b]`. -/
theorem sort_playlist_shuffle_mutates :
    (sort_playlist List.reverse "shuffle" "shuffle" "shuffle" "shuffle" false
        true [vidItemA, vidItemB]).callerItems ≠ [vidItemA, vidItemB] := by
  decide

/-- C6 (amended): in every non-shuffle mode the sorter builds new lists with
`sorted(...)` and the caller's sequence is untouched; in shuffle mode the
caller's sequence is shuffled IN PLACE, ending up identical to the returned
order. -/
theorem sort_playlist_mutation (shuffleOutcome : List SItem → List SItem)
    (sortKey backupSortKey secondarySortKey backupSecondarySortKey : String)
    (sortReverse isAudio : Bool) (items : List SItem) :
    (sortKey ≠ "shuffle" →
      (sort_playlist shuffleOutcome sortKey backupSortKey secondarySortKey
          backupSecondarySortKey sortReverse isAudio items).callerItems
        = items) ∧
      (sort_playlist shuffleOutcome "shuffle" backupSortKey secondarySortKey
          backupSecondarySortKey sortReverse isAudio items).callerItems
        = shuffleOutcome items ∧
      (sort_playlist shuffleOutcome "shuffle" backupSortKey secondarySortKey
          backupSecondarySortKey sortReverse isAudio items).result
        = .ok (shuffleOutcome items) := by
  refine ⟨fun h => ?_, ?_, ?_⟩
  · rw [sort_playlist, if_neg h]
  · rw [sort_playlist, if_pos rfl]
  · rw [sort_playlist, if_pos rfl]

/-- C6 (witness): the no-mutation half applied to a concrete normal-mode
sort. -/
theorem sort_playlist_mutation_witness :
    (sort_playlist List.reverse "title" "title" "" "" false false
        [vidItemA, vidItemB]).callerItems = [vidItemA, vidItemB] :=
  (sort_playlist_mutation List.reverse "title" "title" "" "" false false
    [vidItemA, vidItemB]).1 (by decide)

/-! ## Claim C7: errors on bad keys -/

theorem mapE_decorate_map_fst {f : SItem → Except PyErr String}
    {items : List SItem} {dec : List (SItem × String)}
    (h : mapE (fun i => (f i).map (fun k => (i, k))) items = .ok dec) :
    dec.map Prod.fst = items := by
  induction items generalizing dec with
  | nil =>
      simp only [mapE] at h
      cases h
      rfl
  | cons a rest ih =>
      rw [mapE] at h
      rcases ha : (f a).map (fun k => ((a : SItem), k)) with _ | b
      · rw [ha] at h
        cases h
      · rw [ha] at h
        rcases hr : mapE (fun i => (f i).map (fun k => (i, k))) rest with _ | ds
        · rw [hr] at h
          cases h
        · rw [hr] at h
          cases h
          have hb : b.1 = a := by
            rcases hfa : f a with _ | k
            · rw [hfa] at ha
              cases ha
            · rw [hfa] at ha
              cases ha
              rfl
          simp [hb, ih hr]

/-- A successful sort pass permutes its input. -/
theorem sortPassE_ok_perm {f : SItem → Except PyErr String} {reverse : Bool}
    {items out : List SItem} (h : sortPassE f reverse items = .ok out) :
    out.Perm items := by
  rw [sortPassE] at h
  rcases hm : mapE (fun i => (f i).map (fun k => (i, k))) items with _ | dec
  · rw [hm] at h
    cases h
  · rw [hm] at h
    cases h
    have h1 : ((sortBy (fun a b => dirStrLe reverse a.2 b.2) dec).map
        Prod.fst).Perm (dec.map Prod.fst) :=
      (sortBy_perm _ dec).map Prod.fst
    rw [mapE_decorate_map_fst hm] at h1
    exact h1

def noKeyVidA : SItem := ⟨[("title", .vStr "Zed")]⟩
def noKeyVidB : SItem := ⟨[("title", .vStr "Alpha")]⟩

/-- C7 (counterexample): sorting two video-style items (which lack the
`originalTitle` attribute) by the audio-only artist key raises the plain
built-in `AttributeError`, not any typed `InvalidKeyError` — no such error
type exists anywhere in the source. -/
theorem sort_playlist_attribute_error :
    (sort_playlist List.reverse "originalTitle" "grandparentTitle" "title"
          "title" false false [noKeyVidA, noKeyVidB]).result
        = .error (PyErr.attributeError "originalTitle") ∧
      (PyErr.attributeError "originalTitle") ≠ PyErr.invalidKeyError := by
  refine ⟨?_, by decide⟩
  rw [sort_playlist, if_neg (by decide)]
  decide

/-- C7 (amended): when any item's primary-key computation raises (absent
attribute, or a value with no `lower` such as an `int` or `None` in both the
key and backup slot), the non-shuffle sorter surfaces that untyped error
(`AttributeError`) to the caller rather than returning a reordered list. -/
theorem sort_playlist_error_surfaces (shuffleOutcome : List SItem → List SItem)
    (sortKey backupSortKey secondarySortKey backupSecondarySortKey : String)
    (sortReverse isAudio : Bool) (items : List SItem)
    (hshuffle : sortKey ≠ "shuffle")
    (hbad : ∃ i ∈ items, ∃ e, keyOfE i sortKey backupSortKey = .error e) :
    ∃ e', (sort_playlist shuffleOutcome sortKey backupSortKey secondarySortKey
        backupSecondarySortKey sortReverse isAudio items).result = .error e' := by
  obtain ⟨i, hi, e, he⟩ := hbad
  have hres : (sort_playlist shuffleOutcome sortKey backupSortKey
      secondarySortKey backupSecondarySortKey sortReverse isAudio items).result
      = sort_playlist_items sortKey backupSortKey secondarySortKey
          backupSecondarySortKey sortReverse isAudio items := by
    rw [sort_playlist, if_neg hshuffle]
  rw [hres, sort_playlist_items]
  by_cases hc : secondarySortKey ≠ "" ∧ (isAudio = true)
  · rw [if_pos hc]
    rcases hp1 : sortPassE
        (fun x => keyOfE x secondarySortKey backupSecondarySortKey)
        sortReverse items with e1 | l1
    · exact ⟨e1, rfl⟩
    · have hi1 : i ∈ l1 := (sortPassE_ok_perm hp1).mem_iff.mpr hi
      obtain ⟨e', hp2⟩ :=
        sortPassE_error (f := fun x => keyOfE x sortKey backupSortKey) hi1 he
          sortReverse
      exact ⟨e', hp2⟩
  · rw [if_neg hc]
    obtain ⟨e', hp2⟩ :=
      sortPassE_error (f := fun x => keyOfE x sortKey backupSortKey) hi he
        sortReverse
    exact ⟨e', hp2⟩

/-- C7 (witness): the error-surfacing theorem applied to the concrete
video items missing `originalTitle`. -/
theorem sort_playlist_error_surfaces_witness :
    ∃ e', (sort_playlist List.reverse "originalTitle" "grandparentTitle"
        "title" "title" false false [noKeyVidA, noKeyVidB]).result
      = .error e' :=
  sort_playlist_error_surfaces List.reverse "originalTitle" "grandparentTitle"
    "title" "title" false false [noKeyVidA, noKeyVidB] (by decide)
    ⟨noKeyVidA, by decide, PyErr.attributeError "originalTitle", by decide⟩
